import Mathlib

/-!
Verification of `fetch_versions.py` (timvink/actions-latest).

The Python program is shallowly embedded below.  Python strings are
modelled as `List Char` (ASCII scope), Python's arbitrary-precision
integers as `Nat`, the GitHub API as explicit page sources
(`Nat → Except Unit _`, where `.error` models a fatal transport or
JSON failure of the `curl` / `json.loads` primitives), and the
unbounded `while True` pagination loops with an explicit fuel
parameter (the loops are not structurally terminating for arbitrary
page sources; `none` means fuel ran out, a model artifact that never
arises in the theorems below).
-/

/-- Python strings, modelled as lists of characters (ASCII scope). -/
abbrev PyStr := List Char

/-- The whitespace characters stripped by Python's `str.strip()` (ASCII scope:
space, tab, newline, carriage return, vertical tab, form feed, and the file,
group, record and unit separators `\x1c`-`\x1f`, all of which satisfy
CPython's `str.isspace`). -/
def pyIsSpace (c : Char) : Bool :=
  c = ' ' || c = '\t' || c = '\n' || c = '\r' || c = '\x0b' || c = '\x0c' ||
  c = '\x1c' || c = '\x1d' || c = '\x1e' || c = '\x1f'

/-- Python `str.strip()`: drop leading and trailing whitespace. -/
def pyStrip (s : PyStr) : PyStr :=
  ((s.dropWhile pyIsSpace).reverse.dropWhile pyIsSpace).reverse

/-- Python `str.lower()` (ASCII scope). -/
def pyLower (s : PyStr) : PyStr := s.map Char.toLower

/-- Python string comparison `s <= t` (lexicographic on code points). -/
def strLE : PyStr → PyStr → Bool
  | [], _ => true
  | _ :: _, [] => false
  | a :: as_, b :: bs => if a = b then strLE as_ bs else decide (a < b)

/-- The single-character line boundaries of Python's `str.splitlines()`
(ASCII scope): newline, carriage return, vertical tab, form feed, and the
file, group and record separators `\x1c`-`\x1e` (`\x1f` is whitespace but
not a line boundary in CPython). -/
def pyIsLineBreak (c : Char) : Bool :=
  c = '\n' || c = '\r' || c = '\x0b' || c = '\x0c' ||
  c = '\x1c' || c = '\x1d' || c = '\x1e'

/-- Python `str.splitlines()` (ASCII scope): every `pyIsLineBreak` character
ends a line, with the pair `\r\n` counting as a single boundary; no empty
final line is produced for a trailing line break. -/
def pySplitLines : PyStr → List PyStr
  | [] => []
  | '\r' :: '\n' :: rest => [] :: pySplitLines rest
  | c :: rest =>
    if pyIsLineBreak c then [] :: pySplitLines rest
    else
      match pySplitLines rest with
      | [] => [[c]]
      | l :: ls => (c :: l) :: ls

/-- Python `int(ds)` for a string of decimal digits (arbitrary precision). -/
def digitsToNat (ds : PyStr) : Nat :=
  ds.foldl (fun n c => 10 * n + (c.toNat - '0'.toNat)) 0

/-- Whether a string matches the compiled pattern from the source,
`re.compile(r"^v(\d+)$")`: the character `v` followed by one or more decimal
digits and nothing else. -/
def isVTag : PyStr → Bool
  | [] => false
  | c :: rest => c = 'v' && !rest.isEmpty && rest.all Char.isDigit

/-- The `version_tags` list built by `get_latest_version_tag`: for each tag,
strip it, match it against the pattern, and on success record
`(int(match.group(1)), tag.strip())` in input order. -/
def candidates (tags : List PyStr) : List (Nat × PyStr) :=
  tags.filterMap fun tag =>
    let s := pyStrip tag
    if isVTag s then some (digitsToNat s.tail, s) else none

/-- Stable insertion used to model Python's stable `list.sort`: `x`
(the element earlier in the input) is placed before the first `y` with
`le x y`; on ties (`le x y` and `le y x`) `x` stays first, which is exactly
sort stability. -/
def insertBy (le : α → α → Bool) (x : α) : List α → List α
  | [] => [x]
  | y :: t => if le x y then x :: y :: t else y :: insertBy le x t

/-- Stable sort modelling Python's `list.sort(key=...)` (and, with the order
reversed in `le`, `list.sort(reverse=True, key=...)`, which Python also keeps
stable).  Any stable sort yields the same list, so insertion sort is a
faithful model of Timsort's observable behaviour. -/
def sortBy (le : α → α → Bool) : List α → List α
  | [] => []
  | x :: xs => insertBy le x (sortBy le xs)

/-- Key order used by `version_tags.sort(reverse=True, key=lambda x: x[0])`:
descending on the parsed integer. -/
def descByFst (a b : Nat × PyStr) : Bool := decide (b.1 ≤ a.1)

/-- The function `get_latest_version_tag`: filter to `v<digits>` tags, return `None` if no
tag qualifies, otherwise sort descending by the parsed integer (stable) and
return the second component (the stripped original tag) of the first entry. -/
def get_latest_version_tag (tags : List PyStr) : Option PyStr :=
  let version_tags := candidates tags
  if version_tags.isEmpty then none
  else (sortBy descByFst version_tags).head?.map Prod.snd

/-- A page of the tags endpoint: either a JSON array of tag objects (modelled
by their `name` fields), or a JSON object carrying a `message` field (the
structured error payload, e.g. rate limiting). -/
inductive TagsPage
  | err (msg : PyStr)
  | tags (names : List PyStr)
deriving DecidableEq

/-- Loop body of `fetch_repos`: `page` is the next page number, `acc` the
repos collected so far, `reqs` the page numbers requested so far.  A `src`
page is `.error` when the transport call or top-level JSON parse fails
(fatal, propagates).  Repository objects are modelled by their `name` field,
the only one consumed.  Stops on an empty page or a page shorter than
`per_page = 100`. -/
def fetchReposGo (src : Nat → Except Unit (List PyStr)) :
    Nat → Nat → List PyStr → List Nat → Option (Except Unit (List PyStr × List Nat))
  | 0, _, _, _ => none
  | fuel + 1, page, acc, reqs =>
    match src page with
    | .error e => some (.error e)
    | .ok pageRepos =>
      let reqs' := reqs ++ [page]
      if pageRepos.isEmpty then some (.ok (acc, reqs'))
      else
        let acc' := acc ++ pageRepos
        if pageRepos.length < 100 then some (.ok (acc', reqs'))
        else fetchReposGo src fuel (page + 1) acc' reqs'

/-- The function `fetch_repos`: page through the organization's repository listing starting
at page 1. -/
def fetch_repos (src : Nat → Except Unit (List PyStr)) (fuel : Nat) :
    Option (Except Unit (List PyStr × List Nat)) :=
  fetchReposGo src fuel 1 [] []

/-- Loop body of `fetch_tags`: like `fetchReposGo`, but a page may be the
structured error payload, in which case the message is reported (collected in
`msgs`, modelling the diagnostic print) and the loop breaks, returning the
tags accumulated so far. -/
def fetchTagsGo (src : Nat → Except Unit TagsPage) :
    Nat → Nat → List PyStr → List Nat → List PyStr →
    Option (Except Unit (List PyStr × List Nat × List PyStr))
  | 0, _, _, _, _ => none
  | fuel + 1, page, acc, reqs, msgs =>
    match src page with
    | .error e => some (.error e)
    | .ok (.err m) => some (.ok (acc, reqs ++ [page], msgs ++ [m]))
    | .ok (.tags pageTags) =>
      let reqs' := reqs ++ [page]
      if pageTags.isEmpty then some (.ok (acc, reqs', msgs))
      else
        let acc' := acc ++ pageTags
        if pageTags.length < 100 then some (.ok (acc', reqs', msgs))
        else fetchTagsGo src fuel (page + 1) acc' reqs' msgs

/-- The function `fetch_tags`: page through a repository's tag listing starting at page 1;
returns `(tags, requested page numbers, reported error messages)`. -/
def fetch_tags (src : Nat → Except Unit TagsPage) (fuel : Nat) :
    Option (Except Unit (List PyStr × List Nat × List PyStr)) :=
  fetchTagsGo src fuel 1 [] [] []

/-- State accumulated by the per-repository loop in `main`:
`versions` (repo name, selected tag) in append order, `newUnversioned`
(`new_unversioned`, in loop order; Python's `set.add` cannot duplicate, and
the lists built here duplicate only if the repo listing itself does), and
`fetched` — the repositories for which a tag-fetch call was issued. -/
structure LoopOut where
  versions : List (PyStr × PyStr)
  newUnversioned : List PyStr
  fetched : List PyStr
deriving DecidableEq

/-- The per-repository loop of `main`: a repo in the loaded `unversioned`
cache is skipped (no tag fetch) and carried into `new_unversioned`;
otherwise its tags are fetched (`tagSrc r` is the page source of repo `r`)
and the Version Selector either yields a version or adds the repo to
`new_unversioned`.  A fatal error in a tag fetch propagates. -/
def processRepos (unv : List PyStr) (tagSrc : PyStr → Nat → Except Unit TagsPage)
    (fuel : Nat) : List PyStr → Option (Except Unit LoopOut)
  | [] => some (.ok ⟨[], [], []⟩)
  | r :: rs =>
    if r ∈ unv then
      (processRepos unv tagSrc fuel rs).map (·.map fun o =>
        ⟨o.versions, r :: o.newUnversioned, o.fetched⟩)
    else
      match fetch_tags (tagSrc r) fuel with
      | none => none
      | some (.error e) => some (.error e)
      | some (.ok (tags, _, _)) =>
        (processRepos unv tagSrc fuel rs).map (·.map fun o =>
          match get_latest_version_tag tags with
          | some t => ⟨(r, t) :: o.versions, o.newUnversioned, r :: o.fetched⟩
          | none => ⟨o.versions, r :: o.newUnversioned, r :: o.fetched⟩)

/-- The constant `ORG_NAME = "actions"`. -/
def ORG_NAME : PyStr := "actions".toList

/-- One line of the manifest: `f"{ORG_NAME}/{repo_name}@{tag}"`. -/
def renderLine (repoName tag : PyStr) : PyStr :=
  ORG_NAME ++ ('/' :: repoName) ++ ('@' :: tag)

/-- Python expression `"\n".join(f"{ORG_NAME}/{repo_name}@{tag}" ...) + "\n"`. -/
def renderVersions (versions : List (PyStr × PyStr)) : PyStr :=
  (List.intercalate ['\n'] (versions.map fun p => renderLine p.1 p.2)) ++ ['\n']

/-- Key order of `versions.sort(key=lambda x: x[0].lower())`. -/
def lowerFstLE (a b : PyStr × PyStr) : Bool := strLE (pyLower a.1) (pyLower b.1)

/-- The function `save_unversioned`: the content written to `unversioned.txt` — each name
of the set on its own line, sorted.  The Python set is modelled as a list up
to duplicates and order; `dedup` reflects that a set holds each name once. -/
def save_unversioned (repos : List PyStr) : PyStr :=
  ((sortBy strLE repos.dedup).map (· ++ ['\n'])).flatten

/-- The function `load_unversioned`: `set(line.strip() for line in text.splitlines() if
line.strip())`. -/
def load_unversioned (text : PyStr) : Finset PyStr :=
  (((pySplitLines text).map pyStrip).filter (· ≠ [])).toFinset

/-- A file write performed by the program, carrying the written content
(for the README, the rendered versions content handed to `update_readme`). -/
inductive FileWrite
  | versionsTxt (content : PyStr)
  | readmeSection (content : PyStr)
  | unversionedTxt (content : PyStr)
deriving DecidableEq

/-- The function `main`: load the cache (`unv`), list the repositories, run the
per-repository loop, then — only after the whole pipeline has completed —
sort the versions case-insensitively by repo name, render the manifest and
perform the three writes (`versions.txt`, README section, `unversioned.txt`)
in source order.  The returned list is the sequence of writes performed;
on a fatal error the run aborts having written nothing. -/
def mainModel (unv : List PyStr) (repoSrc : Nat → Except Unit (List PyStr))
    (tagSrc : PyStr → Nat → Except Unit TagsPage) (fuel : Nat) :
    Option (List FileWrite × Except Unit LoopOut) :=
  match fetch_repos repoSrc fuel with
  | none => none
  | some (.error e) => some ([], .error e)
  | some (.ok (repoNames, _)) =>
    match processRepos unv tagSrc fuel repoNames with
    | none => none
    | some (.error e) => some ([], .error e)
    | some (.ok o) =>
      let sortedVersions := sortBy lowerFstLE o.versions
      let content := renderVersions sortedVersions
      some ([.versionsTxt content, .readmeSection content,
             .unversionedTxt (save_unversioned o.newUnversioned)], .ok o)

/-! ### Generic lemmas about the stable sort -/

theorem find?_congr_mem {α : Type} (p q : α → Bool) :
    ∀ l : List α, (∀ a ∈ l, p a = q a) → l.find? p = l.find? q := by
  intro l
  induction l with
  | nil => intro _; rfl
  | cons x xs ih =>
    intro h
    simp only [List.find?]
    rw [h x (by simp)]
    cases hq : q x with
    | true => rfl
    | false => exact ih fun a ha => h a (by simp [ha])

theorem find?_sat {α : Type} (p : α → Bool) (a : α) :
    ∀ l : List α, l.find? p = some a → p a = true := by
  intro l
  induction l with
  | nil => intro h; cases h
  | cons x xs ih =>
    intro h
    simp only [List.find?] at h
    cases hp : p x with
    | true => rw [hp] at h; cases h; exact hp
    | false => rw [hp] at h; exact ih h

theorem find?_cons_pos {α : Type} (p : α → Bool) (a : α) (l : List α)
    (h : p a = true) : (a :: l).find? p = some a := by
  simp only [List.find?, h]

theorem find?_cons_neg {α : Type} (p : α → Bool) (a : α) (l : List α)
    (h : p a = false) : (a :: l).find? p = l.find? p := by
  simp only [List.find?, h]

theorem mem_insertBy {α : Type} (le : α → α → Bool) (x a : α) :
    ∀ l : List α, (a ∈ insertBy le x l ↔ a = x ∨ a ∈ l) := by
  intro l
  induction l with
  | nil => simp [insertBy]
  | cons y t ih =>
    simp only [insertBy]
    split
    · simp [List.mem_cons]
    · simp only [List.mem_cons, ih]
      tauto

theorem insertBy_ne_nil {α : Type} (le : α → α → Bool) (x : α) (l : List α) :
    insertBy le x l ≠ [] := by
  cases l with
  | nil => simp [insertBy]
  | cons y t =>
    simp only [insertBy]
    split <;> simp

theorem sortBy_eq_nil_iff {α : Type} (le : α → α → Bool) (l : List α) :
    sortBy le l = [] ↔ l = [] := by
  cases l with
  | nil => simp [sortBy]
  | cons x xs => simp [sortBy, insertBy_ne_nil]

theorem mem_sortBy {α : Type} (le : α → α → Bool) (a : α) :
    ∀ l : List α, (a ∈ sortBy le l ↔ a ∈ l) := by
  intro l
  induction l with
  | nil => simp [sortBy]
  | cons x xs ih => simp [sortBy, mem_insertBy, ih]

/-- The first element of the stable sort is the first element of the input
that is `le`-below none of the others: stability pins down which maximal
element a stable descending sort puts first. -/
theorem head?_sortBy {α : Type} (le : α → α → Bool)
    (total : ∀ a b, le a b || le b a)
    (trans : ∀ a b c, le a b = true → le b c = true → le a c = true) :
    ∀ l : List α, (sortBy le l).head? = l.find? (fun a => l.all (le a ·)) := by
  intro l
  induction l with
  | nil => rfl
  | cons x xs ih =>
    have hxx : le x x = true := by have h := total x x; simpa using h
    simp only [sortBy]
    cases h : sortBy le xs with
    | nil =>
      have hxs : xs = [] := (sortBy_eq_nil_iff le xs).mp h
      subst hxs
      simp [insertBy, List.find?, hxx]
    | cons y t =>
      rw [h] at ih
      simp only [List.head?] at ih
      have hy_mem : y ∈ xs := by
        have hmem : y ∈ sortBy le xs := by rw [h]; simp
        exact (mem_sortBy le y xs).mp hmem
      have hPy : ((fun a => xs.all (le a ·)) y) = true :=
        find?_sat (fun a => xs.all (le a ·)) y xs ih.symm
      have hydom : ∀ z ∈ xs, le y z = true := by
        simpa [List.all_eq_true] using hPy
      simp only [insertBy]
      by_cases hxy : le x y = true
      · have hxdom : ∀ z ∈ xs, le x z = true := fun z hz => trans x y z hxy (hydom z hz)
        have hPx : ((x :: xs).all (le x ·)) = true := by
          simp only [List.all_cons, List.all_eq_true, Bool.and_eq_true]
          exact ⟨hxx, hxdom⟩
        rw [if_pos hxy, find?_cons_pos (fun a => (x :: xs).all (le a ·)) x xs hPx]
        rfl
      · have hyx : le y x = true := by
          have h2 := total x y
          rcases Bool.or_eq_true_iff.mp h2 with h3 | h3
          · exact absurd h3 hxy
          · exact h3
        have hPx : ((x :: xs).all (le x ·)) = false := by
          simp only [List.all_cons, hxx, Bool.true_and]
          rw [List.all_eq_false]
          exact ⟨y, hy_mem, by simp [hxy]⟩
        rw [if_neg hxy, find?_cons_neg (fun a => (x :: xs).all (le a ·)) x xs hPx]
        have hcongr : ∀ z ∈ xs, ((x :: xs).all (le z ·)) = (xs.all (le z ·)) := by
          intro z hz
          cases hA : (xs.all (le z ·)) with
          | true =>
            have hzx : le z x = true :=
              trans z y x ((List.all_eq_true.mp hA) y hy_mem) hyx
            simp [List.all_cons, hzx, hA]
          | false =>
            simp only [List.all_cons, hA, Bool.and_false]
        rw [find?_congr_mem _ _ xs hcongr]
        simp only [List.head?]
        exact ih

theorem find?_mem {α : Type} (p : α → Bool) (a : α) :
    ∀ l : List α, l.find? p = some a → a ∈ l := by
  intro l
  induction l with
  | nil => intro h; cases h
  | cons x xs ih =>
    intro h
    simp only [List.find?] at h
    cases hp : p x with
    | true => rw [hp] at h; cases h; exact List.mem_cons_self _ _
    | false => rw [hp] at h; exact List.mem_cons_of_mem _ (ih h)

/-- The order `descByFst` is a total preorder, so the head of its stable sort is the
first input element whose integer key is maximal. -/
theorem head?_sortBy_descByFst (l : List (Nat × PyStr)) :
    (sortBy descByFst l).head? =
      l.find? (fun a => l.all (fun b => decide (b.1 ≤ a.1))) := by
  apply head?_sortBy
  · intro a b
    simp only [descByFst, Bool.or_eq_true, decide_eq_true_eq]
    omega
  · intro a b c h1 h2
    simp only [descByFst, decide_eq_true_eq] at *
    omega

/-- The function `get_latest_version_tag` returns the stripped string of the first
candidate (in input order) whose integer value is maximal, and `none`
exactly when there is no candidate. -/
theorem get_latest_eq_find? (tags : List PyStr) :
    get_latest_version_tag tags =
      ((candidates tags).find?
        (fun a => (candidates tags).all (fun b => decide (b.1 ≤ a.1)))).map Prod.snd := by
  unfold get_latest_version_tag
  by_cases hc : (candidates tags).isEmpty = true
  · have hnil : candidates tags = [] := by simpa using hc
    simp [hc, hnil]
  · have hc' : (candidates tags).isEmpty = false := by simpa using hc
    simp [hc', head?_sortBy_descByFst]

/-- A string matches `^v(\d+)$` exactly when it is `v` followed by a
non-empty run of decimal digits. -/
theorem isVTag_iff (s : PyStr) :
    isVTag s = true ↔ ∃ ds : PyStr, s = 'v' :: ds ∧ ds ≠ [] ∧ ∀ c ∈ ds, c.isDigit = true := by
  cases s with
  | nil => simp [isVTag]
  | cons c rest =>
    simp only [isVTag, Bool.and_eq_true, decide_eq_true_eq, Bool.not_eq_true',
      List.isEmpty_eq_false, List.all_eq_true]
    constructor
    · rintro ⟨⟨hc, hne⟩, hall⟩
      exact ⟨rest, by rw [hc], by simpa using hne, hall⟩
    · rintro ⟨ds, heq, hne, hall⟩
      cases heq
      exact ⟨⟨rfl, by simpa using hne⟩, hall⟩

/-- Claim C3: a tag string contributes a candidate to the Version Selector
iff, after trimming leading/trailing whitespace, it matches exactly
`v<digits>` (lowercase `v`, one or more decimal digits, nothing else);
`"v01"` (value 1) and `" v1"` qualify, while `"v1.0"`, `"v1-beta"`, `"V1"`
and `"1"` do not, despite containing qualifying substrings. -/
theorem candidate_membership :
    (∀ tag : PyStr, candidates [tag] ≠ [] ↔
      ∃ ds : PyStr, pyStrip tag = 'v' :: ds ∧ ds ≠ [] ∧ ∀ c ∈ ds, c.isDigit = true) ∧
    candidates ["v01".toList] = [(1, "v01".toList)] ∧
    candidates [" v1".toList] = [(1, "v1".toList)] ∧
    candidates ["v1.0".toList] = [] ∧
    candidates ["v1-beta".toList] = [] ∧
    candidates ["V1".toList] = [] ∧
    candidates ["1".toList] = [] := by
  refine ⟨?_, by decide, by decide, by decide, by decide, by decide, by decide⟩
  intro tag
  rw [← isVTag_iff]
  constructor
  · intro hne
    by_contra hv
    simp only [Bool.not_eq_true] at hv
    simp [candidates, hv] at hne
  · intro hv
    simp [candidates, hv]

/-- Witness for C3 at the concrete input `" v1"`. -/
theorem candidate_membership_witness :
    candidates [" v1".toList] ≠ [] :=
  (candidate_membership.1 " v1".toList).mpr ⟨['1'], by decide, by decide, by decide⟩

/-- Claim C4: with a non-empty candidate set the selector returns the
stripped original string of a candidate whose digit run (as an
arbitrary-precision base-10 integer) is maximal among all candidates;
with an empty candidate set it returns `none`. -/
theorem selector_returns_max (tags : List PyStr) :
    (candidates tags = [] → get_latest_version_tag tags = none) ∧
    (candidates tags ≠ [] →
      ∃ n s, get_latest_version_tag tags = some s ∧
        (n, s) ∈ candidates tags ∧
        (∃ t ∈ tags, s = pyStrip t) ∧
        ∀ p ∈ candidates tags, p.1 ≤ n) := by
  constructor
  · intro h
    simp [get_latest_version_tag, h]
  · intro h
    obtain ⟨x, hx⟩ : ∃ x, (candidates tags).find?
        (fun a => (candidates tags).all (fun b => decide (b.1 ≤ a.1))) = some x := by
      have hs := head?_sortBy_descByFst (candidates tags)
      cases hsort : sortBy descByFst (candidates tags) with
      | nil => exact absurd ((sortBy_eq_nil_iff _ _).mp hsort) h
      | cons a t => exact ⟨a, by rw [← hs, hsort]; rfl⟩
    refine ⟨x.1, x.2, ?_, ?_, ?_, ?_⟩
    · rw [get_latest_eq_find?, hx]; rfl
    · have hmem := find?_mem _ x _ hx
      simpa using hmem
    · have hmem : x ∈ candidates tags := find?_mem _ x _ hx
      simp only [candidates, List.mem_filterMap] at hmem
      obtain ⟨t, ht, hft⟩ := hmem
      by_cases hv : isVTag (pyStrip t) = true
      · simp only [hv, if_true] at hft
        refine ⟨t, ht, ?_⟩
        cases hft
        rfl
      · simp [hv] at hft
    · intro p hp
      have hall := find?_sat _ x _ hx
      simp only [List.all_eq_true, decide_eq_true_eq] at hall
      exact hall p hp

/-- Witness for C4 at the concrete input `["v9","v10","v2","v1"]`
(the selector picks `"v10"`, numerically, not lexicographically). -/
theorem selector_returns_max_witness :
    candidates ["v9".toList, "v10".toList, "v2".toList, "v1".toList] ≠ [] ∧
    (∃ n s, get_latest_version_tag ["v9".toList, "v10".toList, "v2".toList, "v1".toList] = some s ∧
      (n, s) ∈ candidates ["v9".toList, "v10".toList, "v2".toList, "v1".toList] ∧
      (∃ t ∈ ["v9".toList, "v10".toList, "v2".toList, "v1".toList], s = pyStrip t) ∧
      ∀ p ∈ candidates ["v9".toList, "v10".toList, "v2".toList, "v1".toList], p.1 ≤ n) :=
  ⟨by decide, (selector_returns_max _).2 (by decide)⟩

/-- Claim C5: when two or more candidates share the same maximal integer
value (e.g. `"v1"` and `"v01"`), the selector returns the candidate
encountered first in input order — the first element after a stable
descending sort, i.e. the first input candidate below none of the others. -/
theorem selector_tie_first (tags : List PyStr)
    (_h : ∃ i j : Fin (candidates tags).length, (i : Nat) < (j : Nat) ∧
      ((candidates tags).get i).1 = ((candidates tags).get j).1 ∧
      ∀ p ∈ candidates tags, p.1 ≤ ((candidates tags).get i).1) :
    get_latest_version_tag tags =
      ((candidates tags).find?
        (fun a => (candidates tags).all (fun b => decide (b.1 ≤ a.1)))).map Prod.snd :=
  get_latest_eq_find? tags

/-- Witness for C5 at the concrete input `["v1","v01"]`: both normalize to 1
and the selector returns `"v1"`, the first encountered. -/
theorem selector_tie_first_witness :
    get_latest_version_tag ["v1".toList, "v01".toList] =
      ((candidates ["v1".toList, "v01".toList]).find?
        (fun a => (candidates ["v1".toList, "v01".toList]).all
          (fun b => decide (b.1 ≤ a.1)))).map Prod.snd ∧
    get_latest_version_tag ["v1".toList, "v01".toList] = some "v1".toList :=
  ⟨selector_tie_first ["v1".toList, "v01".toList] (by decide), by decide⟩

/-! ### Pagination -/

theorem fetchReposGo_run (src : Nat → Except Unit (List PyStr)) (p : Nat → List PyStr) :
    ∀ (k start : Nat) (acc : List PyStr) (reqs : List Nat) (fuel : Nat),
      (∀ j, j < k → src (start + j) = .ok (p (start + j)) ∧ (p (start + j)).length = 100) →
      src (start + k) = .ok (p (start + k)) →
      (p (start + k)).length < 100 →
      k + 1 ≤ fuel →
      fetchReposGo src fuel start acc reqs =
        some (.ok (acc ++ ((List.range' start (k + 1)).map p).flatten,
                   reqs ++ List.range' start (k + 1))) := by
  intro k
  induction k with
  | zero =>
    intro start acc reqs fuel _ hlast hlen hfuel
    obtain ⟨f, rfl⟩ : ∃ f, fuel = f + 1 := ⟨fuel - 1, by omega⟩
    simp only [Nat.add_zero] at hlast hlen
    by_cases he : (p start).isEmpty = true
    · have hnil : p start = [] := by simpa using he
      simp [fetchReposGo, hlast, he, hnil, List.range'_succ]
    · have he' : (p start).isEmpty = false := by simpa using he
      simp [fetchReposGo, hlast, he', hlen, List.range'_succ]
  | succ k ih =>
    intro start acc reqs fuel hfull hlast hlen hfuel
    obtain ⟨f, rfl⟩ : ∃ f, fuel = f + 1 := ⟨fuel - 1, by omega⟩
    obtain ⟨hsrc0, hlen0⟩ := by simpa only [Nat.add_zero] using hfull 0 (by omega)
    have hne : (p start).isEmpty = false := by
      rw [List.isEmpty_eq_false]
      intro hnil
      rw [hnil] at hlen0
      simp at hlen0
    have hnotlt : ¬ (p start).length < 100 := by omega
    simp only [fetchReposGo, hsrc0, hne, Bool.false_eq_true, if_false, hnotlt]
    rw [ih (start + 1) (acc ++ p start) (reqs ++ [start]) f
      (fun j hj => by
        have hh := hfull (j + 1) (by omega)
        rwa [show start + (j + 1) = start + 1 + j by omega] at hh)
      (by rwa [show start + (k + 1) = start + 1 + k by omega] at hlast)
      (by rwa [show start + (k + 1) = start + 1 + k by omega] at hlen)
      (by omega)]
    simp [List.range'_succ, List.append_assoc]

theorem fetchTagsGo_run (src : Nat → Except Unit TagsPage) (p : Nat → List PyStr) :
    ∀ (k start : Nat) (acc : List PyStr) (reqs : List Nat) (msgs : List PyStr) (fuel : Nat),
      (∀ j, j < k → src (start + j) = .ok (.tags (p (start + j))) ∧ (p (start + j)).length = 100) →
      src (start + k) = .ok (.tags (p (start + k))) →
      (p (start + k)).length < 100 →
      k + 1 ≤ fuel →
      fetchTagsGo src fuel start acc reqs msgs =
        some (.ok (acc ++ ((List.range' start (k + 1)).map p).flatten,
                   reqs ++ List.range' start (k + 1), msgs)) := by
  intro k
  induction k with
  | zero =>
    intro start acc reqs msgs fuel _ hlast hlen hfuel
    obtain ⟨f, rfl⟩ : ∃ f, fuel = f + 1 := ⟨fuel - 1, by omega⟩
    simp only [Nat.add_zero] at hlast hlen
    by_cases he : (p start).isEmpty = true
    · have hnil : p start = [] := by simpa using he
      simp [fetchTagsGo, hlast, he, hnil, List.range'_succ]
    · have he' : (p start).isEmpty = false := by simpa using he
      simp [fetchTagsGo, hlast, he', hlen, List.range'_succ]
  | succ k ih =>
    intro start acc reqs msgs fuel hfull hlast hlen hfuel
    obtain ⟨f, rfl⟩ : ∃ f, fuel = f + 1 := ⟨fuel - 1, by omega⟩
    obtain ⟨hsrc0, hlen0⟩ := by simpa only [Nat.add_zero] using hfull 0 (by omega)
    have hne : (p start).isEmpty = false := by
      rw [List.isEmpty_eq_false]
      intro hnil
      rw [hnil] at hlen0
      simp at hlen0
    have hnotlt : ¬ (p start).length < 100 := by omega
    simp only [fetchTagsGo, hsrc0, hne, Bool.false_eq_true, if_false, hnotlt]
    rw [ih (start + 1) (acc ++ p start) (reqs ++ [start]) msgs f
      (fun j hj => by
        have hh := hfull (j + 1) (by omega)
        rwa [show start + (j + 1) = start + 1 + j by omega] at hh)
      (by rwa [show start + (k + 1) = start + 1 + k by omega] at hlast)
      (by rwa [show start + (k + 1) = start + 1 + k by omega] at hlen)
      (by omega)]
    simp [List.range'_succ, List.append_assoc]

theorem fetchTagsGo_err (src : Nat → Except Unit TagsPage) (p : Nat → List PyStr) (msg : PyStr) :
    ∀ (k start : Nat) (acc : List PyStr) (reqs : List Nat) (msgs : List PyStr) (fuel : Nat),
      (∀ j, j < k → src (start + j) = .ok (.tags (p (start + j))) ∧ (p (start + j)).length = 100) →
      src (start + k) = .ok (.err msg) →
      k + 1 ≤ fuel →
      fetchTagsGo src fuel start acc reqs msgs =
        some (.ok (acc ++ ((List.range' start k).map p).flatten,
                   reqs ++ List.range' start (k + 1), msgs ++ [msg])) := by
  intro k
  induction k with
  | zero =>
    intro start acc reqs msgs fuel _ herr hfuel
    obtain ⟨f, rfl⟩ : ∃ f, fuel = f + 1 := ⟨fuel - 1, by omega⟩
    simp only [Nat.add_zero] at herr
    simp [fetchTagsGo, herr, List.range'_succ]
  | succ k ih =>
    intro start acc reqs msgs fuel hfull herr hfuel
    obtain ⟨f, rfl⟩ : ∃ f, fuel = f + 1 := ⟨fuel - 1, by omega⟩
    obtain ⟨hsrc0, hlen0⟩ := by simpa only [Nat.add_zero] using hfull 0 (by omega)
    have hne : (p start).isEmpty = false := by
      rw [List.isEmpty_eq_false]
      intro hnil
      rw [hnil] at hlen0
      simp at hlen0
    have hnotlt : ¬ (p start).length < 100 := by omega
    simp only [fetchTagsGo, hsrc0, hne, Bool.false_eq_true, if_false, hnotlt]
    rw [ih (start + 1) (acc ++ p start) (reqs ++ [start]) msgs f
      (fun j hj => by
        have hh := hfull (j + 1) (by omega)
        rwa [show start + (j + 1) = start + 1 + j by omega] at hh)
      (by rwa [show start + (k + 1) = start + 1 + k by omega] at herr)
      (by omega)]
    simp [List.range'_succ, List.append_assoc]

/-- Claim C6: for both the Repository Lister and the Tag Fetcher, a page
source with `N` (resp. `M`) pages of exactly the page size (100) followed by
one shorter — possibly empty — page makes the fetcher issue exactly `N + 1`
(resp. `M + 1`) requests, with page numbers `1 .. N + 1`, and return the
concatenation of all returned items in request order.  The single-short-page
case is the `N = 0` instance: exactly one request. -/
theorem pagination_requests (rp tp : Nat → List PyStr) (N M fuel : Nat)
    (hrfull : ∀ j, j < N → (rp (1 + j)).length = 100)
    (hrlast : (rp (1 + N)).length < 100)
    (htfull : ∀ j, j < M → (tp (1 + j)).length = 100)
    (htlast : (tp (1 + M)).length < 100)
    (hfuelr : N + 1 ≤ fuel)
    (hfuelt : M + 1 ≤ fuel) :
    fetch_repos (fun n => .ok (rp n)) fuel =
      some (.ok (((List.range' 1 (N + 1)).map rp).flatten, List.range' 1 (N + 1))) ∧
    fetch_tags (fun n => .ok (.tags (tp n))) fuel =
      some (.ok (((List.range' 1 (M + 1)).map tp).flatten, List.range' 1 (M + 1), [])) := by
  constructor
  · have h := fetchReposGo_run (fun n => .ok (rp n)) rp N 1 [] [] fuel
      (fun j hj => ⟨rfl, hrfull j hj⟩) rfl hrlast hfuelr
    simpa [fetch_repos] using h
  · have h := fetchTagsGo_run (fun n => .ok (.tags (tp n))) tp M 1 [] [] [] fuel
      (fun j hj => ⟨rfl, htfull j hj⟩) rfl htlast hfuelt
    simpa [fetch_tags] using h

/-- Witness for C6: one full page of 100 items then a one-item page, for both
fetchers — two requests (pages 1 and 2) each, items concatenated in order. -/
theorem pagination_requests_witness :
    fetch_repos (fun n => .ok (if n = 1 then List.replicate 100 ['a'] else if n = 2 then [['b']] else [])) 2 =
      some (.ok (((List.range' 1 2).map (fun n => if n = 1 then List.replicate 100 ['a'] else if n = 2 then [['b']] else [])).flatten, List.range' 1 2)) ∧
    fetch_tags (fun n => .ok (.tags (if n = 1 then List.replicate 100 ['c'] else if n = 2 then [['d']] else []))) 2 =
      some (.ok (((List.range' 1 2).map (fun n => if n = 1 then List.replicate 100 ['c'] else if n = 2 then [['d']] else [])).flatten, List.range' 1 2, [])) :=
  pagination_requests
    (fun n => if n = 1 then List.replicate 100 ['a'] else if n = 2 then [['b']] else [])
    (fun n => if n = 1 then List.replicate 100 ['c'] else if n = 2 then [['d']] else [])
    1 1 2
    (fun j hj => by
      have hj0 : j = 0 := by omega
      subst hj0
      simp)
    (by simp)
    (fun j hj => by
      have hj0 : j = 0 := by omega
      subst hj0
      simp)
    (by simp)
    (by omega)
    (by omega)

/-- Counterexample to claim C2 as stated: when the first page is full
(100 tags) and the second page is the error payload, `fetch_tags` reports
the message but returns the 100 tags accumulated from the first page —
not the empty sequence the claim requires "on any page". -/
theorem tagFetcher_error_keeps_earlier_pages :
    fetch_tags (fun n => if n = 1 then .ok (.tags (List.replicate 100 "v1".toList))
      else .ok (.err "API rate limit exceeded".toList)) 2 =
      some (.ok (List.replicate 100 "v1".toList, [1, 2], ["API rate limit exceeded".toList])) ∧
    List.replicate 100 "v1".toList ≠ [] := by
  constructor
  · rfl
  · simp

/-- Claim C2 amended: when a tags page is the structured error payload
(after `M` full pages), the Tag Fetcher reports the message, stops paging,
and returns the tags accumulated from the pages before the error — the empty
sequence exactly when the error arrives on the first page — and the result
is a soft success (`.ok`), so the overall run continues rather than
aborting. -/
theorem tagFetcher_soft_error (src : Nat → Except Unit TagsPage) (p : Nat → List PyStr)
    (msg : PyStr) (M fuel : Nat)
    (hfull : ∀ j, j < M → src (1 + j) = .ok (.tags (p (1 + j))) ∧ (p (1 + j)).length = 100)
    (herr : src (1 + M) = .ok (.err msg))
    (hfuel : M + 1 ≤ fuel) :
    fetch_tags src fuel =
      some (.ok (((List.range' 1 M).map p).flatten, List.range' 1 (M + 1), [msg])) := by
  have h := fetchTagsGo_err src p msg M 1 [] [] [] fuel hfull herr hfuel
  simpa [fetch_tags] using h

/-- Witness for C2 (amended) with the error on the very first page: no tags,
one request, the message reported, and a soft (`.ok`) result. -/
theorem tagFetcher_soft_error_witness :
    fetch_tags (fun _ => .ok (.err "API rate limit exceeded".toList)) 1 =
      some (.ok (((List.range' 1 0).map (fun _ => ([] : List PyStr))).flatten,
        List.range' 1 1, ["API rate limit exceeded".toList])) :=
  tagFetcher_soft_error (fun _ => .ok (.err "API rate limit exceeded".toList))
    (fun _ => ([] : List PyStr)) "API rate limit exceeded".toList 0 1
    (fun j hj => by omega)
    rfl
    (by omega)

/-! ### The per-repository loop and the writes of `main` -/

/-- Inversion for one step of the per-repository loop. -/
theorem processRepos_cons_inv (unv : List PyStr) (tagSrc : PyStr → Nat → Except Unit TagsPage)
    (fuel : Nat) (r : PyStr) (rs : List PyStr) (o : LoopOut)
    (h : processRepos unv tagSrc fuel (r :: rs) = some (.ok o)) :
    ∃ o', processRepos unv tagSrc fuel rs = some (.ok o') ∧
      ((r ∈ unv ∧ o = ⟨o'.versions, r :: o'.newUnversioned, o'.fetched⟩) ∨
       (r ∉ unv ∧ ∃ tags reqs msgs,
         fetch_tags (tagSrc r) fuel = some (.ok (tags, reqs, msgs)) ∧
         ((∃ t, get_latest_version_tag tags = some t ∧
             o = ⟨(r, t) :: o'.versions, o'.newUnversioned, r :: o'.fetched⟩) ∨
          (get_latest_version_tag tags = none ∧
             o = ⟨o'.versions, r :: o'.newUnversioned, r :: o'.fetched⟩)))) := by
  simp only [processRepos] at h
  by_cases hr : r ∈ unv
  · rw [if_pos hr] at h
    cases hrec : processRepos unv tagSrc fuel rs with
    | none => rw [hrec] at h; cases h
    | some ex =>
      rw [hrec] at h
      cases ex with
      | error e => simp [Except.map] at h
      | ok o' =>
        simp only [Option.map_some', Except.map] at h
        have ho := (Except.ok.inj (Option.some.inj h)).symm
        exact ⟨o', rfl, Or.inl ⟨hr, ho⟩⟩
  · rw [if_neg hr] at h
    cases hft : fetch_tags (tagSrc r) fuel with
    | none => rw [hft] at h; cases h
    | some ex =>
      rw [hft] at h
      cases ex with
      | error e => simp at h
      | ok res =>
        obtain ⟨tags, reqs, msgs⟩ := res
        simp only [] at h
        cases hrec : processRepos unv tagSrc fuel rs with
        | none => rw [hrec] at h; cases h
        | some ex2 =>
          rw [hrec] at h
          cases ex2 with
          | error e => simp [Except.map] at h
          | ok o' =>
            simp only [Option.map_some', Except.map] at h
            refine ⟨o', rfl, Or.inr ⟨hr, tags, reqs, msgs, rfl, ?_⟩⟩
            cases hsel : get_latest_version_tag tags with
            | some t =>
              rw [hsel] at h
              exact Or.inl ⟨t, rfl, (Except.ok.inj (Option.some.inj h)).symm⟩
            | none =>
              rw [hsel] at h
              exact Or.inr ⟨rfl, (Except.ok.inj (Option.some.inj h)).symm⟩

/-- Counterexample to claim C7 as stated: a cached name whose repository is
absent from the current listing is not in the run's saved unversioned set —
here the cache holds "gone", the listing is empty, the run completes and
saves an empty cache (the cache write content is empty). -/
theorem cached_name_dropped_when_unlisted :
    mainModel ["gone".toList] (fun _ => .ok []) (fun _ _ => .ok (.tags [])) 1 =
      some ([.versionsTxt ['\n'], .readmeSection ['\n'], .unversionedTxt []],
        .ok ⟨[], [], []⟩) ∧
    "gone".toList ∉ (LoopOut.mk [] [] []).newUnversioned := by
  constructor
  · rfl
  · simp

/-- Claim C7 amended: a repository name in the loaded unversioned cache is
never tag-fetched during the run and — provided it appears in the current
run's repository listing — it is in the unversioned set saved at the end of
the run. -/
theorem cached_repo_skipped (unv : List PyStr) (tagSrc : PyStr → Nat → Except Unit TagsPage)
    (fuel : Nat) (repoNames : List PyStr) (o : LoopOut) (name : PyStr)
    (hname : name ∈ unv)
    (hrun : processRepos unv tagSrc fuel repoNames = some (.ok o)) :
    name ∉ o.fetched ∧ (name ∈ repoNames → name ∈ o.newUnversioned) := by
  induction repoNames generalizing o with
  | nil =>
    simp only [processRepos] at hrun
    have ho := (Except.ok.inj (Option.some.inj hrun)).symm
    subst ho
    simp
  | cons r rs ih =>
    obtain ⟨o', hrec, hcase⟩ := processRepos_cons_inv unv tagSrc fuel r rs o hrun
    obtain ⟨hf', hu'⟩ := ih o' hrec
    rcases hcase with ⟨hr, rfl⟩ | ⟨hr, tags, reqs, msgs, hft, hsel⟩
    · refine ⟨by simpa using hf', ?_⟩
      intro hmem
      rcases List.mem_cons.mp hmem with rfl | hmem'
      · exact List.mem_cons_self _ _
      · exact List.mem_cons_of_mem _ (hu' hmem')
    · have hner : name ≠ r := fun he => hr (he ▸ hname)
      rcases hsel with ⟨t, hsome, rfl⟩ | ⟨hnone, rfl⟩
      · refine ⟨?_, ?_⟩
        · intro hmm
          rcases List.mem_cons.mp hmm with he | hm
          · exact hner he
          · exact hf' hm
        · intro hmem
          rcases List.mem_cons.mp hmem with he | hm
          · exact absurd he hner
          · exact hu' hm
      · refine ⟨?_, ?_⟩
        · intro hmm
          rcases List.mem_cons.mp hmm with he | hm
          · exact hner he
          · exact hf' hm
        · intro hmem
          rcases List.mem_cons.mp hmem with he | hm
          · exact absurd he hner
          · exact List.mem_cons_of_mem _ (hu' hm)

/-- Witness for C7 (amended): cache `{"cached"}`, listing `["cached"]` — the
repo is not fetched and is carried into the saved unversioned set. -/
theorem cached_repo_skipped_witness :
    "cached".toList ∉ (LoopOut.mk [] ["cached".toList] []).fetched ∧
    ("cached".toList ∈ ["cached".toList] →
      "cached".toList ∈ (LoopOut.mk [] ["cached".toList] []).newUnversioned) :=
  cached_repo_skipped ["cached".toList] (fun _ _ => .ok (.tags [])) 1
    ["cached".toList] ⟨[], ["cached".toList], []⟩ "cached".toList (by decide) (by rfl)

/-- Claim C10: the unversioned set saved at the end of a completed run is a
subset of the repository names listed in that run; a cached name absent from
the listing is silently dropped. -/
theorem saved_cache_subset_of_listing (unv : List PyStr)
    (tagSrc : PyStr → Nat → Except Unit TagsPage) (fuel : Nat)
    (repoNames : List PyStr) (o : LoopOut)
    (hrun : processRepos unv tagSrc fuel repoNames = some (.ok o)) :
    (∀ n ∈ o.newUnversioned, n ∈ repoNames) ∧
    (∀ n ∈ unv, n ∉ repoNames → n ∉ o.newUnversioned) := by
  have main : ∀ (L : List PyStr) (o' : LoopOut),
      processRepos unv tagSrc fuel L = some (.ok o') →
      ∀ n ∈ o'.newUnversioned, n ∈ L := by
    intro L
    induction L with
    | nil =>
      intro o' h n hn
      simp only [processRepos] at h
      have ho := (Except.ok.inj (Option.some.inj h)).symm
      subst ho
      simp at hn
    | cons r rs ih =>
      intro o' h n hn
      obtain ⟨o'', hrec, hcase⟩ := processRepos_cons_inv unv tagSrc fuel r rs o' h
      rcases hcase with ⟨hr, rfl⟩ | ⟨hr, tags, reqs, msgs, hft, hsel⟩
      · simp only [] at hn
        rcases List.mem_cons.mp hn with rfl | hm
        · exact List.mem_cons_self _ _
        · exact List.mem_cons_of_mem _ (ih o'' hrec n hm)
      · rcases hsel with ⟨t, hsome, rfl⟩ | ⟨hnone, rfl⟩
        · exact List.mem_cons_of_mem _ (ih o'' hrec n hn)
        · rcases List.mem_cons.mp hn with rfl | hm
          · exact List.mem_cons_self _ _
          · exact List.mem_cons_of_mem _ (ih o'' hrec n hm)
  exact ⟨main repoNames o hrun,
    fun n _ hnot hmem => hnot (main repoNames o hrun n hmem)⟩

/-- Witness for C10: cache `{"gone"}`, listing `["alpha"]` with no tags —
the saved set `["alpha"]` is inside the listing and "gone" is dropped. -/
theorem saved_cache_subset_of_listing_witness :
    (∀ n ∈ (LoopOut.mk [] ["alpha".toList] ["alpha".toList]).newUnversioned,
      n ∈ ["alpha".toList]) ∧
    (∀ n ∈ ["gone".toList], n ∉ ["alpha".toList] →
      n ∉ (LoopOut.mk [] ["alpha".toList] ["alpha".toList]).newUnversioned) :=
  saved_cache_subset_of_listing ["gone".toList] (fun _ _ => .ok (.tags [])) 1
    ["alpha".toList] ⟨[], ["alpha".toList], ["alpha".toList]⟩ (by rfl)

/-- Claim C9: if a fatal error (transport failure or invalid top-level JSON)
occurs during repository listing or any tag fetch, `main` aborts having
performed no file write; and a completed run performs exactly the three
writes — manifest, README section, unversioned cache — only after the whole
fetch pipeline has finished. -/
theorem no_writes_on_fatal (unv : List PyStr) (repoSrc : Nat → Except Unit (List PyStr))
    (tagSrc : PyStr → Nat → Except Unit TagsPage) (fuel : Nat) :
    (∀ w e, mainModel unv repoSrc tagSrc fuel = some (w, .error e) → w = []) ∧
    (∀ w o, mainModel unv repoSrc tagSrc fuel = some (w, .ok o) →
      ∃ c u, w = [.versionsTxt c, .readmeSection c, .unversionedTxt u]) := by
  constructor
  · intro w e h
    unfold mainModel at h
    split at h
    · cases h
    · exact (congrArg Prod.fst (Option.some.inj h)).symm
    · split at h
      · cases h
      · exact (congrArg Prod.fst (Option.some.inj h)).symm
      · have hsnd := congrArg Prod.snd (Option.some.inj h)
        simp at hsnd
  · intro w o h
    unfold mainModel at h
    split at h
    · cases h
    · have hsnd := congrArg Prod.snd (Option.some.inj h)
      simp at hsnd
    · split at h
      · cases h
      · have hsnd := congrArg Prod.snd (Option.some.inj h)
        simp at hsnd
      · refine ⟨_, _, (congrArg Prod.fst (Option.some.inj h)).symm⟩

/-- Witness for C9: a run whose repository listing fails fatally on page 1
produces an aborted result with the empty write list. -/
theorem no_writes_on_fatal_witness :
    mainModel [] (fun _ => .error ()) (fun _ _ => .ok (.tags [])) 1 =
      some ([], .error ()) ∧ ([] : List FileWrite) = [] :=
  ⟨rfl, (no_writes_on_fatal [] (fun _ => .error ()) (fun _ _ => .ok (.tags [])) 1).1 [] () rfl⟩

/-- Repository page source of the test suite's integration scenario:
setup-python, setup-node and no-tags-repo on a single page. -/
def c1RepoSrc : Nat → Except Unit (List PyStr) :=
  fun n => if n = 1 then
    .ok ["setup-python".toList, "setup-node".toList, "no-tags-repo".toList]
  else .ok []

/-- Tag page sources of the test suite's integration scenario. -/
def c1TagSrc : PyStr → Nat → Except Unit TagsPage :=
  fun r n => .ok (.tags (if n = 1 then
    (if r = "setup-python".toList then ["v1".toList, "v2".toList, "v5".toList]
     else if r = "setup-node".toList then
       ["v1".toList, "v2".toList, "v3".toList, "v4".toList]
     else []) else []))

/-- Claim C1 (code bug): on the integration scenario of the test suite —
primary-org repos setup-python / setup-node / no-tags-repo, plus a configured
external pair (astral-sh, setup-uv) whose repository has qualifying tag v3 —
`main` renders every line with the primary organization and never consults
any additional (organization, repository) list (the module defines no such
configuration, although its test suite patches `fetch_versions.EXTERNAL_REPOS`
and asserts an `astral-sh/setup-uv@v3` line): the written manifest contains
no `astral-sh/setup-uv@v3` line. -/
theorem manifest_lacks_external_repos :
    mainModel [] c1RepoSrc c1TagSrc 1 =
      some ([.versionsTxt "actions/setup-node@v4\nactions/setup-python@v5\n".toList,
             .readmeSection "actions/setup-node@v4\nactions/setup-python@v5\n".toList,
             .unversionedTxt "no-tags-repo\n".toList],
            .ok ⟨[("setup-python".toList, "v5".toList), ("setup-node".toList, "v4".toList)],
                 ["no-tags-repo".toList],
                 ["setup-python".toList, "setup-node".toList, "no-tags-repo".toList]⟩) ∧
    "astral-sh/setup-uv@v3".toList ∉
      pySplitLines "actions/setup-node@v4\nactions/setup-python@v5\n".toList := by
  constructor
  · rfl
  · decide

/-! ### Round-trip of the unversioned cache file -/

theorem pySplitLines_cons_other (c : Char) (rest : PyStr) (h : pyIsLineBreak c = false) :
    pySplitLines (c :: rest) = match pySplitLines rest with
      | [] => [[c]]
      | l :: ls => (c :: l) :: ls := by
  have hr : c ≠ '\r' := by
    intro he
    subst he
    simp [pyIsLineBreak] at h
  cases rest with
  | nil => simp [pySplitLines, h]
  | cons d rest' => simp [pySplitLines, h, hr]

/-- Splitting off one line: a line-break-free prefix followed by a newline. -/
theorem pySplitLines_append_line (n t : PyStr)
    (h : ∀ c ∈ n, pyIsLineBreak c = false) :
    pySplitLines (n ++ '\n' :: t) = n :: pySplitLines t := by
  induction n with
  | nil => simp [pySplitLines, pyIsLineBreak]
  | cons c n' ih =>
    have hc := h c (by simp)
    have hrest : ∀ c' ∈ n', pyIsLineBreak c' = false := fun c' hc' => h c' (by simp [hc'])
    rw [List.cons_append, pySplitLines_cons_other c _ hc, ih hrest]

/-- Splitting the concatenation of newline-terminated line-break-free lines
recovers exactly those lines. -/
theorem pySplitLines_flatten (names : List PyStr)
    (h : ∀ s ∈ names, ∀ c ∈ s, pyIsLineBreak c = false) :
    pySplitLines ((names.map (· ++ ['\n'])).flatten) = names := by
  induction names with
  | nil => rfl
  | cons n rest ih =>
    simp only [List.map_cons, List.flatten_cons]
    have hjoin : n ++ ['\n'] ++ (rest.map (· ++ ['\n'])).flatten =
        n ++ '\n' :: (rest.map (· ++ ['\n'])).flatten := by
      simp
    rw [hjoin, pySplitLines_append_line n _ (h n (by simp)),
      ih (fun s hs => h s (by simp [hs]))]

/-- Counterexample to claim C8 as stated: a name with leading whitespace is
stripped on load, so the saved-then-loaded set differs from the original. -/
theorem unversioned_roundtrip_counterexample :
    load_unversioned (save_unversioned [" repo".toList]) ≠
      ([" repo".toList] : List PyStr).toFinset := by
  decide

/-- Claim C8 amended: for a finite set of names that are non-empty, contain
no `splitlines` line-boundary characters (newline, carriage return, vertical
tab, form feed, `\x1c`-`\x1e`), and carry no leading or trailing whitespace
(every GitHub repository name qualifies), saving the unversioned set and
loading it back yields the same set of names — independent of insertion
order and duplicates, since the result is compared as a set. -/
theorem unversioned_roundtrip (l : List PyStr)
    (h : ∀ s ∈ l, s ≠ [] ∧ pyStrip s = s ∧ ∀ c ∈ s, pyIsLineBreak c = false) :
    load_unversioned (save_unversioned l) = l.toFinset := by
  unfold load_unversioned save_unversioned
  have hmemL : ∀ s, (s ∈ sortBy strLE l.dedup ↔ s ∈ l) := by
    intro s
    rw [mem_sortBy, List.mem_dedup]
  have hgood : ∀ s ∈ sortBy strLE l.dedup, ∀ c ∈ s, pyIsLineBreak c = false := by
    intro s hs c hc
    exact (h s ((hmemL s).mp hs)).2.2 c hc
  rw [pySplitLines_flatten _ hgood]
  have hmap : (sortBy strLE l.dedup).map pyStrip = (sortBy strLE l.dedup).map id :=
    List.map_congr_left (fun s hs => (h s ((hmemL s).mp hs)).2.1)
  rw [hmap, List.map_id]
  have hfilter : (sortBy strLE l.dedup).filter (· ≠ []) = sortBy strLE l.dedup := by
    rw [List.filter_eq_self]
    intro s hs
    simpa using (h s ((hmemL s).mp hs)).1
  rw [hfilter]
  apply Finset.ext
  intro s
  simp only [List.mem_toFinset]
  exact hmemL s

/-- Witness for C8 (amended) at the test suite's set
`{"zebra", "alpha", "mango"}`. -/
theorem unversioned_roundtrip_witness :
    load_unversioned (save_unversioned
      ["zebra".toList, "alpha".toList, "mango".toList]) =
      (["zebra".toList, "alpha".toList, "mango".toList] : List PyStr).toFinset :=
  unversioned_roundtrip ["zebra".toList, "alpha".toList, "mango".toList] (by decide)
